import Mathlib

set_option maxRecDepth 40000

/-!
Verification of the gamedata extraction pipeline of reader.rs: format
detection, the UPX stream decompressor, and the antidec2 and GM8.1
cipher transforms.  The byte buffer (`io::Cursor<&mut [u8]>`) is embedded
as a length plus a byte-lookup function; 32-bit machine arithmetic is
embedded as natural numbers reduced modulo 2^32 (release-mode wrapping
semantics).  Fallible operations return `Option` or `Except`; a Rust
panic (out-of-bounds index / failed unwrap) is the distinguished error
`RErr.crash`.
-/

/-- 2^32, the modulus of 32-bit machine arithmetic. -/
def M32 : Nat := 4294967296

/-- Reduction modulo 2^32 (the value a wrapping u32 operation stores). -/
def w32 (x : Nat) : Nat := x % M32

/-- Wrapping 32-bit addition (u32::wrapping_add). -/
def wadd (a b : Nat) : Nat := (a + b) % M32

/-- Wrapping 32-bit subtraction (u32::wrapping_sub), left operand a u32 value. -/
def wsub (a b : Nat) : Nat := (a + (M32 - b % M32)) % M32

/-- u32::swap_bytes: reverse the four bytes of a 32-bit value. -/
def swap32 (x : Nat) : Nat :=
  x % 256 * 16777216 + x / 256 % 256 * 65536 + x / 65536 % 256 * 256 + x / 16777216 % 256

/-- ExecutableImage: the whole in-memory file, a byte length plus byte lookup. -/
structure Img where
  len : Nat
  byte : Nat → Nat

/-- io::Cursor over an image: the buffer plus the read/write position. -/
structure Cur where
  img : Img
  pos : Nat

/-- Build an image from an explicit byte list (lookups past the end give 0). -/
def listImg (l : List Nat) : Img := ⟨l.length, fun i => l.getD i 0⟩

/-- The little-endian 32-bit value formed by the four bytes at offset p. -/
def le32at (m : Img) (p : Nat) : Nat :=
  m.byte p + 256 * m.byte (p + 1) + 65536 * m.byte (p + 2) + 16777216 * m.byte (p + 3)

/-- Store a 32-bit value at offset p as four little-endian bytes. -/
def write4 (m : Img) (p v : Nat) : Img :=
  ⟨m.len, fun j =>
    if j = p then v % 256
    else if j = p + 1 then v / 256 % 256
    else if j = p + 2 then v / 65536 % 256
    else if j = p + 3 then v / 16777216 % 256
    else m.byte j⟩

/-- Modelled from the spec: byteio read_u8 on a cursor (the byteio module is
not part of the sources; all reads are bounds-checked, failing past the end). -/
def rdU8 (c : Cur) : Option (Nat × Cur) :=
  if c.pos < c.img.len then some (c.img.byte c.pos, ⟨c.img, c.pos + 1⟩) else none

/-- Modelled from the spec: byteio read_u32_le on a cursor — four bytes,
little-endian, error if fewer than four bytes remain. -/
def rdU32 (c : Cur) : Option (Nat × Cur) :=
  if c.pos + 4 ≤ c.img.len then some (le32at c.img c.pos, ⟨c.img, c.pos + 4⟩) else none

/-- Modelled from the spec: byteio write_u32_le on a cursor. -/
def wrU32 (c : Cur) (v : Nat) : Option Cur :=
  if c.pos + 4 ≤ c.img.len then some ⟨write4 c.img c.pos v, c.pos + 4⟩ else none

/-- Cursor::set_position. -/
def setPos (c : Cur) (p : Nat) : Cur := ⟨c.img, p⟩

/-- Cursor::seek(SeekFrom::Current(k)) for a non-negative k (always succeeds). -/
def seekBy (c : Cur) (k : Nat) : Cur := ⟨c.img, c.pos + k⟩

/-! ## The antidec2 cipher transform (decrypt_antidec) -/

/-- One word step of decrypt_antidec: XOR with the xor mask, wrapping add of
the add mask, then byte swap. -/
def adStep (xm am w : Nat) : Nat := swap32 (wadd (w ^^^ xm) am)

/-- The (xor, add) mask pair after k evolution steps of decrypt_antidec:
xor_mask loses sub_mask (wrapping), add_mask becomes swap_bytes(add_mask)+1;
sub_mask itself never changes. -/
def adMasks (xm am sm : Nat) : Nat → Nat × Nat
  | 0 => (xm, am)
  | k + 1 => (wsub (adMasks xm am sm k).1 sm, wadd (swap32 (adMasks xm am sm k).2) 1)

/-- The rchunks_exact_mut(4) loop of decrypt_antidec: rewrite c consecutive
4-byte words, the word ending at offset e first, moving toward the start of
the buffer, evolving the masks after each word. -/
def adGo : Nat → Nat → Nat → Nat → Nat → Img → Img
  | 0, _, _, _, _, m => m
  | c + 1, e, xm, am, sm, m =>
    adGo c (e - 4) (wsub xm sm) (wadd (swap32 am) 1) sm
      (write4 m (e - 4) (adStep xm am (le32at m (e - 4))))

/-- decrypt_antidec: rewrite the region from exe_load_offset to the end of
file in place and set the cursor to exe_load_offset + header_start + 4
(wrapping u32 sum).  `none` models the panic of the `.unwrap()` when
exe_load_offset exceeds the buffer length. -/
def decrypt_antidec (c : Cur) (exe_load_offset header_start xor_mask add_mask sub_mask : Nat) :
    Option Cur :=
  if exe_load_offset ≤ c.img.len then
    some ⟨adGo ((c.img.len - exe_load_offset) / 4) c.img.len xor_mask add_mask sub_mask c.img,
          w32 (exe_load_offset + header_start + 4)⟩
  else none

/-- Modelled from the spec: one word step of the antidec2 forward (encrypting)
transform — the same operations in the inverse order: byte swap, wrapping
subtract of the add mask, XOR with the xor mask. -/
def adEncStep (xm am w : Nat) : Nat := wsub (swap32 w) am ^^^ xm

/-- Modelled from the spec: the antidec2 forward transform, processing words
front-to-back (the inverse direction); the word with c complete words after
it uses the mask pair evolved c times, exactly the pair the decryptor will
use on it. -/
def adEncGo (xm am sm : Nat) : Nat → Nat → Img → Img
  | 0, _, m => m
  | c + 1, p, m =>
    adEncGo xm am sm c (p + 4)
      (write4 m p (adEncStep (adMasks xm am sm c).1 (adMasks xm am sm c).2 (le32at m p)))

/-- Modelled from the spec: antidec2 forward transform of a whole buffer. -/
def antidec_encrypt (xm am sm : Nat) (m : Img) : Img :=
  adEncGo xm am sm (m.len / 4) (m.len % 4) m

/-! ## The GM8.1 cipher transform (decrypt_gm81) -/

/-- One pass of the loop body of the YYG crc_32_reflect closure, counting the
remaining iterations; bit i of the input lands at position (remaining-1). -/
def crc_32_reflect_go : Nat → Nat → Nat → Nat
  | 0, _, rv => rv
  | i + 1, v, rv => crc_32_reflect_go i (v / 2) (if v &&& 1 ≠ 0 then rv ||| (1 <<< i) else rv)

/-- The crc_32_reflect closure of decrypt_gm81: reflect the low c bits of v. -/
def crc_32_reflect (v c : Nat) : Nat := crc_32_reflect_go c v 0

/-- One shift-and-conditionally-xor round of the crc table generation. -/
def crcRound (x : Nat) : Nat :=
  w32 (x <<< 1) ^^^ (if x &&& 2147483648 ≠ 0 then 0x04C11DB7 else 0)

/-- Iterate crcRound. -/
def crcRounds : Nat → Nat → Nat
  | 0, x => x
  | k + 1, x => crcRounds k (crcRound x)

/-- Entry i of the 256-entry crc table generated by decrypt_gm81 (the source
loop computes each entry independently from its index). -/
def crcTableEntry (i : Nat) : Nat :=
  crc_32_reflect (crcRounds 8 (w32 (crc_32_reflect i 8 <<< 24))) 32

/-- The crc_32 closure of decrypt_gm81: a reflected CRC-32 over the key bytes. -/
def crc_32 (key : List Nat) : Nat :=
  key.foldl (fun r ch => r / 256 ^^^ crcTableEntry ((r &&& 255) ^^^ ch)) 0xFFFFFFFF

/-- Decimal ASCII digits, fuel-counted (each step divides by 10, so a fuel of
n + 1 can never run out; the empty list is the unreachable out-of-fuel case). -/
def decDigitsGo : Nat → Nat → List Nat
  | 0, _ => []
  | f + 1, n => if n < 10 then [48 + n] else decDigitsGo f (n / 10) ++ [48 + n % 10]

/-- Decimal ASCII digits of a natural number, as produced by format!("{}", n). -/
def decDigits (n : Nat) : List Nat := decDigitsGo (n + 1) n

/-- The bytes of the hash key string "_MJD<n>#RWK" built by decrypt_gm81. -/
def hashKeyBytes (n : Nat) : List Nat :=
  [0x5F, 0x4D, 0x4A, 0x44] ++ decDigits n ++ [0x23, 0x52, 0x57, 0x4B]

/-- The UTF-16-style expansion: each byte followed by a zero byte. -/
def utf16 (l : List Nat) : List Nat := (l.map (fun b => [b, 0])).flatten

/-- One evolution step of the first GM8.1 seed (multiplier 0x9069). -/
def gm81Step1 (s : Nat) : Nat := (s &&& 0xFFFF) * 0x9069 + s / 65536

/-- One evolution step of the second GM8.1 seed (multiplier 0x4650). -/
def gm81Step2 (s : Nat) : Nat := (s &&& 0xFFFF) * 0x4650 + s / 65536

/-- The GM8.1 seed pair after k evolution steps. -/
def gm81Seeds (s1 s2 : Nat) : Nat → Nat × Nat
  | 0 => (s1, s2)
  | k + 1 => (gm81Step1 (gm81Seeds s1 s2 k).1, gm81Step2 (gm81Seeds s1 s2 k).2)

/-- The XOR mask formed from the two seeds: (seed1 << 16) + (seed2 & 0xFFFF),
with the u32 shift wrapping. -/
def gm81Mask (s1 s2 : Nat) : Nat := w32 (s1 <<< 16) + (s2 &&& 0xFFFF)

/-- The decryption loop of decrypt_gm81: for c consecutive 4-byte words
starting at p, evolve both seeds, XOR the word with the mask, write back. -/
def gm81Go : Nat → Nat → Nat → Nat → Img → Img
  | 0, _, _, _, m => m
  | c + 1, p, s1, s2, m =>
    gm81Go c (p + 4) (gm81Step1 s1) (gm81Step2 s2)
      (write4 m p (gm81Mask (gm81Step1 s1) (gm81Step2 s2) ^^^ le32at m p))

/-- decrypt_gm81: read the hash-key seed and seed1 (4 bytes each), derive
seed2 as the CRC-32 of the UTF-16 hash key, skip (seed2 & 0xFF) + 10 bytes,
decrypt every whole 4-byte word to the end of the stream, and restore the
cursor to just after the two seed reads.  `none` models a failed seed read. -/
def decrypt_gm81 (c : Cur) : Option Cur :=
  match rdU32 c with
  | none => none
  | some (hseed, c1) =>
    match rdU32 c1 with
    | none => none
    | some (s1, c2) =>
      let s2 := crc_32 (utf16 (hashKeyBytes hseed))
      let start := c2.pos + ((s2 &&& 255) + 10)
      some ⟨gm81Go ((c2.img.len - start) / 4) start s1 s2 c2.img, c2.pos⟩

/-! ## The format detector (find_gamedata and its probes) -/

/-- The outcomes of an extraction step: ReaderError's IO, PartialUPXPacking
and UnknownFormat variants, plus `crash` for a Rust panic (out-of-bounds
index or failed unwrap) and `noFuel` for exhausted loop fuel in the model. -/
inductive RErr
  | ioErr
  | notFullyPacked
  | unknownFmt
  | crash
  | noFuel
deriving DecidableEq

/-- Modelled from the spec: GameVersion, the closed tag {GM_8_0, GM_8_1}
produced once by the detector (the enum itself lives outside the sources). -/
inductive GameVersion
  | gm8_0
  | gm8_1
deriving DecidableEq

/-- read_u8 with the `?` operator: a failed read is ReaderError::IO. -/
def rdU8e (c : Cur) : Except RErr (Nat × Cur) :=
  match rdU8 c with
  | some r => .ok r
  | none => .error .ioErr

/-- read_u32_le with the `?` operator. -/
def rdU32e (c : Cur) : Except RErr (Nat × Cur) :=
  match rdU32 c with
  | some r => .ok r
  | none => .error .ioErr

/-- read_exact of n bytes with the `?` operator. -/
def rdBytes (c : Cur) (n : Nat) : Except RErr (List Nat × Cur) :=
  if c.pos + n ≤ c.img.len then
    .ok ((List.range n).map (fun i => c.img.byte (c.pos + i)), ⟨c.img, c.pos + n⟩)
  else .error .ioErr

/-- check_antidec: probe the antidec2 loading sequence at 0x32337; on a match
read the single-byte xor mask 9 bytes back, broadcast it to a dword mask, and
extract the five decryption parameters from their fixed offsets. -/
def check_antidec (c : Cur) : Except RErr (Option (Nat × Nat × Nat × Nat × Nat) × Cur) :=
  if c.img.len < 0x144AC4 then .ok (none, c) else do
    let (sig, c) ← rdBytes (setPos c 0x32337) 8
    if sig = [0xE2, 0xF7, 0xC7, 0x05, 0x2E, 0x2F, 0x43, 0x00] then do
      let (b, c) ← rdU8e (setPos c (c.pos - 9))
      let dm := b * 0x01010101
      let (w1, c) ← rdU32e (setPos c 0x322A9)
      let (hs, c) ← rdU32e (setPos c 0x144AC0)
      let (wx, c) ← rdU32e (setPos c 0x322D3)
      let (wa, c) ← rdU32e (setPos c 0x322D8)
      let (ws, c) ← rdU32e (setPos c 0x322E4)
      .ok (some (w1 ^^^ dm, hs, wx ^^^ dm, wa ^^^ dm, ws ^^^ dm), c)
    else .ok (none, c)

/-- Outcome of parsing one optional GM8.0 guard value. -/
inductive GuardParse
  | abort
  | val (g : Option Nat)

/-- The guard-value parse shared by both GM8.0 checks: opcode 0x3D (CMP) reads
the magic and demands the given JNZ bytes (else the check is patched out);
opcode 0x90 (NOP) means patched out, skipping 4 bytes; any other opcode makes
check_gm80 return Ok(false). -/
def gm80Magic (jnz : List Nat) (c : Cur) : Except RErr (GuardParse × Cur) := do
  let (op, c) ← rdU8e c
  if op = 0x3D then do
    let (magic, c) ← rdU32e c
    let (b6, c) ← rdBytes c 6
    if b6 = jnz then .ok (.val (some magic), c) else .ok (.val none, c)
  else if op = 0x90 then .ok (.val none, seekBy c 4)
  else .ok (.abort, c)

/-- The second header dword validation of check_gm80, then the final seek. -/
def gm80Hdr2 (hv : Option Nat) (c : Cur) : Except RErr (Bool × Cur) :=
  match hv with
  | some n =>
    match rdU32e c with
    | .error e => .error e
    | .ok (h2, c) => if h2 = n then .ok (true, seekBy c 8) else .ok (false, c)
  | none => .ok (true, seekBy (seekBy c 4) 8)

/-- The first header dword validation of check_gm80, then gm80Hdr2. -/
def gm80Hdr1 (gv hv : Option Nat) (c : Cur) : Except RErr (Bool × Cur) :=
  match gv with
  | some n =>
    match rdU32e c with
    | .error e => .error e
    | .ok (h1, c) => if h1 = n then gm80Hdr2 hv c else .ok (false, c)
  | none => gm80Hdr2 hv (seekBy c 4)

/-- check_gm80: probe the standard GM8.0 loading sequence at 0xA49BE, parse
the two optional guard values, read the header start from 0x144AC0, seek
there, validate whichever guard values are present, and skip 8 bytes. -/
def check_gm80 (c : Cur) : Except RErr (Bool × Cur) :=
  if c.img.len < 0x144AC4 then .ok (false, c) else do
    let (sig, c) ← rdBytes (setPos c 0xA49BE) 8
    if sig = [0x8B, 0x45, 0xF4, 0xE8, 0x2A, 0xBD, 0xFD, 0xFF] then do
      let (g1, c) ← gm80Magic [0x0F, 0x85, 0x18, 0x01, 0x00, 0x00] c
      match g1 with
      | .abort => .ok (false, c)
      | .val gv => do
        let (b7, c) ← rdBytes (setPos c 0xA49E2) 7
        let (g2, c) ←
          if b7 = [0x8B, 0xC6, 0xE8, 0x07, 0xBD, 0xFD, 0xFF] then
            gm80Magic [0x0F, 0x85, 0xF5, 0x00, 0x00, 0x00] c
          else .ok (.val none, c)
        match g2 with
        | .abort => .ok (false, c)
        | .val hv => do
          let (header_start, c) ← rdU32e (setPos c 0x144AC0)
          gm80Hdr1 gv hv (setPos c header_start)
    else .ok (false, c)

/-- The masked-and-summed dword pair tested by the GM8.1 header search. -/
def maskSum (m : Img) (i : Nat) : Nat :=
  (le32at m i &&& 0xFF00FF00) + (le32at m (i + 4) &&& 0x00FF00FF)

/-- The GM8.1 header search loop, fuel-counted: test offset i; on a match
stop with the cursor after the two dwords read at i; otherwise advance the
candidate by one byte, giving up when the next candidate's window reaches end
of file. -/
def gm81ScanGoF (m : Img) (n : Nat) : Nat → Nat → Except RErr (Option Nat × Nat)
  | 0, _ => .error .noFuel
  | f + 1, i =>
    if i + 4 ≤ m.len then
      if i + 8 ≤ m.len then
        if maskSum m i = n then .ok (some i, i + 8)
        else if m.len ≤ i + 9 then .ok (none, i + 8)
        else gm81ScanGoF m n f (i + 1)
      else .error .ioErr
    else .error .ioErr

/-- The GM8.1 header search: the loop advances at most m.len times, so a fuel
of m.len + 1 can never run out. -/
def gm81ScanGo (m : Img) (n : Nat) (i : Nat) : Except RErr (Option Nat × Nat) :=
  gm81ScanGoF m n (m.len + 1) i

/-- check_gm81: probe the standard GM8.1 loading sequence at 0x226CF3, read
the header start, parse the optional magic value, search for the header when
the magic is intact, run decrypt_gm81 and skip 20 bytes. -/
def check_gm81 (c : Cur) : Except RErr (Bool × Cur) :=
  if c.img.len < 0x226D8A then .ok (false, c) else do
    let (sig, c) ← rdBytes (setPos c 0x226CF3) 8
    if sig = [0xE8, 0x80, 0xF2, 0xDD, 0xFF, 0xC7, 0x45, 0xF0] then do
      let (header_start, c) ← rdU32e c
      let (b3, c) ← rdBytes (seekBy c 125) 3
      let (magic, c) ←
        if b3 = [0x81, 0x7D, 0xEC] then do
          let (n, c) ← rdU32e c
          let (j, c) ← rdU8e c
          if j = 0x74 then (.ok (some n, c) : Except RErr (Option Nat × Cur)) else .ok (none, c)
        else .ok (none, c)
      let c := setPos c header_start
      match magic with
      | some n =>
        match gm81ScanGo c.img n header_start with
        | .error e => .error e
        | .ok (none, p) => .ok (false, setPos c p)
        | .ok (some _, p) =>
          match decrypt_gm81 (setPos c p) with
          | none => .error .ioErr
          | some c2 => .ok (true, seekBy c2 20)
      | none =>
        match decrypt_gm81 (seekBy c 8) with
        | none => .error .ioErr
        | some c2 => .ok (true, seekBy c2 20)
    else .ok (false, c)

/-- The UPX version-string skip as run with no logger, fuel-counted with fuel
exactly m.len - p, which reaches 0 exactly when the read at p fails. -/
def skipVerFGo (m : Img) : Nat → Nat → Option Nat
  | 0, _ => none
  | f + 1, p => if m.byte p = 0 then some (p + 1) else skipVerFGo m f (p + 1)

/-- The UPX version-string skip as run with no logger: `while read_u8()? != 0`,
propagating a read failure. Returns the position after the zero byte. -/
def skipVerF (m : Img) (p : Nat) : Option Nat := skipVerFGo m (m.len - p) p

/-- The UPX version-string skip as run with a logger, fuel-counted with fuel
exactly m.len - p, which reaches 0 exactly when the read at p fails; the
loop then stops silently at position p. -/
def skipVerTGo (m : Img) : Nat → Nat → Nat
  | 0, p => p
  | f + 1, p => if m.byte p = 0 then p + 1 else skipVerTGo m f (p + 1)

/-- The UPX version-string skip as run with a logger: `while let Ok(ch) =
read_u8`, stopping silently at end of input. -/
def skipVerT (m : Img) (p : Nat) : Nat := skipVerTGo m (m.len - p) p

/-- The only logger-dependent control flow of find_gamedata: the version
string is consumed by one of the two loops above. -/
def skipVersion (verbose : Bool) (c : Cur) : Except RErr Cur :=
  if verbose then .ok ⟨c.img, skipVerT c.img c.pos⟩
  else
    match skipVerF c.img c.pos with
    | some p => .ok ⟨c.img, p⟩
    | none => .error .ioErr

/-! ## The UPX stream decompressor (unpack_upx) -/

/-- Bounds-checked read of the growing output buffer; an out-of-range index
is a Rust panic. -/
def outRd (o : Img) (i : Nat) : Except RErr Nat :=
  if i < o.len then .ok (o.byte i) else .error .crash

/-- Bounds-checked write to the growing output buffer; an out-of-range index
is a Rust panic. -/
def outWr (o : Img) (i v : Nat) : Except RErr Img :=
  if i < o.len then .ok ⟨o.len, fun j => if j = i then v else o.byte j⟩ else .error .crash

/-- Arithmetic shift right by one of a u32 bit pattern ((u_var12 as i32) >> 1). -/
def asr1 (x : Nat) : Nat := if x < 2147483648 then x / 2 else 2147483648 + x / 2

/-- The shift-register bit pull repeated inline throughout unpack_upx: record
the carry, double the register, and refill it from the input (doubled plus
one) when it reaches zero. -/
def upxBit (c : Cur) (u9 : Nat) : Except RErr (Bool × Nat × Cur) :=
  let b := decide (2147483648 ≤ u9)
  let u9b := w32 (2 * u9)
  if u9b = 0 then do
    let (v, c) ← rdU32e c
    .ok (decide (2147483648 ≤ v), w32 (2 * v + 1), c)
  else .ok (b, u9b, c)

/-- The literal-copy loop of unpack_upx: copy input bytes to the output while
the pulled carry bits stay set. Returns the state when the loop breaks. -/
def upxLit : Nat → Cur → Img → Nat → Nat → Except RErr (Cur × Img × Nat × Nat)
  | 0, _, _, _, _ => .error .noFuel
  | f + 1, c, out, u9, p14 => do
    let (b, c) ← rdU8e c
    let out ← outWr out p14 b
    let p14 := p14 + 1
    let dw := decide (2147483648 ≤ u9)
    let u9 := w32 (2 * u9)
    if u9 = 0 ∨ dw = false then .ok (c, out, u9, p14)
    else upxLit f c out u9 p14

/-- The first bit-count decode loop of unpack_upx (the loop producing
u_var6), including its double-carry early exits. Returns (cursor, register,
u_var6). -/
def upxLoopA : Nat → Cur → Nat → Nat → Except RErr (Cur × Nat × Nat)
  | 0, _, _, _ => .error .noFuel
  | f + 1, c, u9, i5 => do
    let (dw17, u10, c) ← upxBit c u9
    let u6 := w32 (2 * i5 + (if dw17 then 1 else 0))
    let u9 := w32 (2 * u10)
    if 2147483648 ≤ u10 then
      if u9 ≠ 0 then .ok (c, u9, u6)
      else do
        let (v, c) ← rdU32e c
        let u9 := w32 (2 * v + 1)
        if 2147483648 ≤ v then .ok (c, u9, u6)
        else do
          let (dw17b, u9, c) ← upxBit c u9
          upxLoopA f c u9 (w32 (wsub u6 1 * 2 + (if dw17b then 1 else 0)))
    else do
      let (dw17b, u9, c) ← upxBit c u9
      upxLoopA f c u9 (w32 (wsub u6 1 * 2 + (if dw17b then 1 else 0)))

/-- The distance-bits decode loop of unpack_upx (the nested loop growing
i_var5), including its double-carry early exits. Returns (cursor, register,
i_var5). -/
def upxLoopB : Nat → Cur → Nat → Nat → Except RErr (Cur × Nat × Nat)
  | 0, _, _, _ => .error .noFuel
  | f + 1, c, u9, i5 => do
    let (dw17, u10, c) ← upxBit c u9
    let i5 := w32 (2 * i5 + (if dw17 then 1 else 0))
    let u9 := w32 (2 * u10)
    if 2147483648 ≤ u10 then
      if u9 ≠ 0 then .ok (c, u9, i5)
      else do
        let (v, c) ← rdU32e c
        let u9 := w32 (2 * v + 1)
        if 2147483648 ≤ v then .ok (c, u9, i5)
        else upxLoopB f c u9 i5
    else upxLoopB f c u9 i5

/-- The aligned four-bytes-at-a-time back-reference copy loop of unpack_upx.
Returns (output, pu_var8, pu_var14, u_var10) at loop exit. -/
def upxFast : Nat → Img → Nat → Nat → Nat → Except RErr (Img × Nat × Nat × Nat)
  | 0, _, _, _, _ => .error .noFuel
  | f + 1, out, p8, p14, u10 => do
    let v1 ← outRd out p8
    let v2 ← outRd out (p8 + 1)
    let v3 ← outRd out (p8 + 2)
    let v4 ← outRd out (p8 + 3)
    let out ← outWr out p14 v1
    let out ← outWr out (p14 + 1) v2
    let out ← outWr out (p14 + 2) v3
    let out ← outWr out (p14 + 3) v4
    let dw17 := decide (3 < u10)
    let u10 := wsub u10 4
    if dw17 = false ∨ u10 = 0 then .ok (out, p8 + 4, p14 + 4, u10)
    else upxFast f out (p8 + 4) (p14 + 4) u10

/-- The byte-by-byte back-reference copy loop of unpack_upx. Returns
(output, pu_var8, pu_var14). -/
def upxSlow : Nat → Img → Nat → Nat → Nat → Except RErr (Img × Nat × Nat)
  | 0, _, _, _, _ => .error .noFuel
  | f + 1, out, p8, p14, u10 => do
    let v ← outRd out p8
    let out ← outWr out p14 v
    let u10 := wsub u10 1
    if u10 = 0 then .ok (out, p8 + 1, p14 + 1)
    else upxSlow f out (p8 + 1) (p14 + 1) u10

/-- The control-flow positions of the unpack_upx decode loop, with the
scalars whose values differ between them: `head` is LAB_0 (optional register
refill, then the literal phase while the carry is set), `lenDecode` is the
u_var6 decode with the 0xFFFFFFFF termination sentinel, `matchCopy` decodes
the remaining distance bits and runs the back-reference copy. -/
inductive UpxPhase
  | head (u9 : Nat) (dw18 : Bool) (pullNew : Bool)
  | lenDecode (u9 : Nat)
  | matchCopy (u9 : Nat) (dw17 : Bool) (i5 : Nat)

/-- The decode loop of unpack_upx, one fuel unit per phase transition. -/
def upxLoop : Nat → UpxPhase → Cur → Img → Nat → Nat → Except RErr (Img × Cur)
  | 0, _, _, _, _, _ => .error .noFuel
  | f + 1, .head u9 dw18 pullNew, c, out, u12, p14 => do
    let (u9, dw18, c) ←
      if pullNew then do
        let (v, c) ← rdU32e c
        (.ok (w32 (2 * v + 1), decide (2147483648 ≤ v), c) :
          Except RErr (Nat × Bool × Cur))
      else .ok (u9, dw18, c)
    if dw18 then do
      let (c, out, u9, p14) ← upxLit (f + 1) c out u9 p14
      if u9 = 0 then upxLoop f (.head u9 dw18 true) c out u12 p14
      else upxLoop f (.lenDecode u9) c out u12 p14
    else upxLoop f (.lenDecode u9) c out u12 p14
  | f + 1, .lenDecode u9, c, out, u12, p14 => do
    let (c, u9, u6) ← upxLoopA (f + 1) c u9 1
    if u6 < 3 then do
      let (dw17, u9, c) ← upxBit c u9
      upxLoop f (.matchCopy u9 dw17 0) c out u12 p14
    else do
      let (b, c) ← rdU8e c
      let u12 := (w32 ((u6 - 3) <<< 8) &&& 0xFFFFFF00) + (b &&& 0xFF) ^^^ 0xFFFFFFFF
      if u12 = 0 then .ok (out, c)
      else upxLoop f (.matchCopy u9 (decide (u12 &&& 1 ≠ 0)) 0) c out (asr1 u12) p14
  | f + 1, .matchCopy u9 dw17 i5, c, out, u12, p14 => do
    let (c, u9, i5, b) ←
      if dw17 = false then do
        let i5 := wadd i5 1
        let (dw17b, u9, c) ← upxBit c u9
        if dw17b = false then do
          let (c, u9, i5) ← upxLoopB (f + 1) c u9 i5
          (.ok (c, u9, wadd i5 2, false) : Except RErr (Cur × Nat × Nat × Bool))
        else .ok (c, u9, i5, true)
      else .ok (c, u9, i5, true)
    let (c, u9, i5) ←
      if b then do
        let (dw17c, u9, c) ← upxBit c u9
        (.ok (c, u9, w32 (2 * i5 + (if dw17c then 1 else 0))) :
          Except RErr (Cur × Nat × Nat))
      else .ok (c, u9, i5)
    let u10 := w32 (i5 + 2 + (if u12 < 0xFFFFFB00 then 1 else 0))
    let p8 := w32 (p14 + u12)
    let (out, p14) ←
      if u12 < 0xFFFFFFFD then do
        let (out, _, p14r, u10r) ← upxFast (f + 1) out p8 p14 u10
        (.ok (out, w32 (p14r + u10r)) : Except RErr (Img × Nat))
      else do
        let (out, _, p14r) ← upxSlow (f + 1) out p8 p14 u10
        .ok (out, p14r)
    let u9n := w32 (2 * u9)
    upxLoop f (.head u9n (decide (2147483648 ≤ u9)) (decide (u9n = 0))) c out u12 p14

/-- unpack_upx: read the PE header offset and the code entry point, allocate
a zeroed output of entry-point size, seed the shift register from the input,
and run the decode loop from output cursor 0x400. -/
def unpack_upx (fuel : Nat) (c : Cur) : Except RErr (Img × Cur) := do
  let (pe, c) ← rdU8e (setPos c 0x3C)
  let (entry, c) ← rdU32e (setPos c (pe + 40))
  let (u9, c) ← rdU32e (seekBy c 361)
  upxLoop fuel (.head (w32 (2 * u9 + 1)) (decide (2147483648 ≤ u9)) false) c
    ⟨entry, fun _ => 0⟩ 0xFFFFFFFF 0x400

/-! ## find_gamedata -/

/-- The tail of the UPX branch of find_gamedata, from the point just after
the version-string skip: confirm the trailing "UPX!" magic (else
PartialUPXPacking), unpack, probe the unpacked buffer for antidec2, decrypt
the original image and report GM_8_0, or fail with UnknownFormat. -/
def fgUpxTail (fuel : Nat) (c : Cur) : Except RErr (GameVersion × Cur) := do
  let (w2, c) ← rdU32e c
  if w2 = 0x21585055 then do
    let (unpacked, c) ← unpack_upx fuel (seekBy c 28)
    match check_antidec ⟨unpacked, 0⟩ with
    | .error e => .error e
    | .ok (none, _) => .error .unknownFmt
    | .ok (some (elo, hs, xm, am, sm), _) =>
      match decrypt_antidec c elo hs xm am sm with
      | none => .error .crash
      | some c2 => .ok (GameVersion.gm8_0, seekBy c2 12)
  else .error .notFullyPacked

/-- The non-UPX part of find_gamedata: the bare antidec2 probe, then the
standard GM8.0 and GM8.1 probes, in that order. -/
def fgBase (c : Cur) : Except RErr (GameVersion × Cur) := do
  let (ad, c) ← check_antidec c
  match ad with
  | some (elo, hs, xm, am, sm) =>
    match decrypt_antidec c elo hs xm am sm with
    | none => .error .crash
    | some c2 => .ok (GameVersion.gm8_0, seekBy c2 12)
  | none => do
    let (g80, c) ← check_gm80 c
    if g80 then .ok (GameVersion.gm8_0, c)
    else do
      let (g81, c) ← check_gm81 c
      if g81 then .ok (GameVersion.gm8_1, c)
      else .error .unknownFmt

/-- find_gamedata: probe for "UPX0" at 0x170 and "UPX1" 36 bytes later; on
both matching, skip the version string, and finish inside the UPX branch; if
"UPX0" or "UPX1" is absent, fall through to the bare antidec2 and standard
probes. The verbose flag selects which version-skip loop runs, mirroring
`logger.is_some()`. -/
def find_gamedata (fuel : Nat) (verbose : Bool) (c0 : Cur) : Except RErr (GameVersion × Cur) := do
  let (w0, c) ← rdU32e (setPos c0 0x170)
  if w0 = 0x30585055 then do
    let (w1, c) ← rdU32e (seekBy c 36)
    if w1 = 0x31585055 then do
      let c ← skipVersion verbose (seekBy c 76)
      fgUpxTail fuel c
    else fgBase c
  else fgBase c

/-! ## Arithmetic and buffer lemmas -/

theorem w32_lt (x : Nat) : w32 x < M32 := by
  simp only [w32, M32]; omega

theorem wadd_lt (a b : Nat) : wadd a b < M32 := by
  simp only [wadd, M32]; omega

theorem wsub_lt (a b : Nat) : wsub a b < M32 := by
  simp only [wsub, M32]; omega

theorem swap32_lt (x : Nat) : swap32 x < M32 := by
  simp only [swap32, M32]; omega

theorem swap32_bytes (b0 b1 b2 b3 : Nat) (h0 : b0 < 256) (h1 : b1 < 256)
    (h2 : b2 < 256) (h3 : b3 < 256) :
    swap32 (b0 + 256 * b1 + 65536 * b2 + 16777216 * b3) =
      b3 + 256 * b2 + 65536 * b1 + 16777216 * b0 := by
  simp only [swap32]; omega

theorem swap32_swap32 (x : Nat) (h : x < M32) : swap32 (swap32 x) = x := by
  obtain ⟨b0, b1, b2, b3, h0, h1, h2, h3, rfl⟩ :
      ∃ b0 b1 b2 b3, b0 < 256 ∧ b1 < 256 ∧ b2 < 256 ∧ b3 < 256 ∧
        x = b0 + 256 * b1 + 65536 * b2 + 16777216 * b3 := by
    exact ⟨x % 256, x / 256 % 256, x / 65536 % 256, x / 16777216 % 256,
      by omega, by omega, by omega, by simp only [M32] at h; omega,
      by simp only [M32] at h; omega⟩
  rw [swap32_bytes _ _ _ _ h0 h1 h2 h3, swap32_bytes _ _ _ _ h3 h2 h1 h0]

theorem wadd_wsub_cancel (a b : Nat) (h : a < M32) : wadd (wsub a b) b = a := by
  simp only [wadd, wsub, M32] at *; omega

theorem w32_id (x : Nat) (h : x < M32) : w32 x = x := by
  simp only [w32, M32] at *; omega

theorem xor_lt_M32 (a b : Nat) (ha : a < M32) (hb : b < M32) : a ^^^ b < M32 := by
  have h1 : M32 = 2 ^ 32 := by simp [M32]
  rw [h1] at ha hb ⊢
  exact Nat.xor_lt_two_pow ha hb

theorem le32_recompose (v : Nat) :
    v % 256 + 256 * (v / 256 % 256) + 65536 * (v / 65536 % 256) +
      16777216 * (v / 16777216 % 256) = v % M32 := by
  simp only [M32]; omega

theorem write4_len (m : Img) (p v : Nat) : (write4 m p v).len = m.len := rfl

theorem write4_b0 (m : Img) (p v : Nat) : (write4 m p v).byte p = v % 256 := by
  simp only [write4]
  repeat' split
  all_goals first | rfl | omega | simp_all

theorem write4_b1 (m : Img) (p v : Nat) : (write4 m p v).byte (p + 1) = v / 256 % 256 := by
  simp only [write4]
  repeat' split
  all_goals first | rfl | omega | simp_all

theorem write4_b2 (m : Img) (p v : Nat) : (write4 m p v).byte (p + 2) = v / 65536 % 256 := by
  simp only [write4]
  repeat' split
  all_goals first | rfl | omega | simp_all

theorem write4_b3 (m : Img) (p v : Nat) : (write4 m p v).byte (p + 3) = v / 16777216 % 256 := by
  simp only [write4]
  repeat' split
  all_goals first | rfl | omega | simp_all

theorem write4_byte (m : Img) (p v r : Nat) (h : r < 4) :
    (write4 m p v).byte (p + r) = v / 256 ^ r % 256 := by
  interval_cases r
  · simpa using write4_b0 m p v
  · simpa using write4_b1 m p v
  · simpa using write4_b2 m p v
  · simpa using write4_b3 m p v

theorem write4_frame (m : Img) (p v j : Nat) (h : j < p ∨ p + 3 < j) :
    (write4 m p v).byte j = m.byte j := by
  simp only [write4]
  repeat' split
  all_goals first | rfl | omega | simp_all

theorem le32at_write4 (m : Img) (p v : Nat) : le32at (write4 m p v) p = w32 v := by
  simp only [le32at, write4_b0, write4_b1, write4_b2, write4_b3, w32]
  exact le32_recompose v

theorem le32at_write4_frame (m : Img) (p v q : Nat) (h : q + 3 < p ∨ p + 3 < q) :
    le32at (write4 m p v) q = le32at m q := by
  simp only [le32at]
  rw [write4_frame _ _ _ _ (by omega), write4_frame _ _ _ _ (by omega),
    write4_frame _ _ _ _ (by omega), write4_frame _ _ _ _ (by omega)]

theorem bytes_le32at (m : Img) (p r : Nat) (hr : r < 4)
    (hb : ∀ j, j < 4 → m.byte (p + j) < 256) :
    m.byte (p + r) = le32at m p / 256 ^ r % 256 := by
  have h0 := hb 0 (by omega)
  have h1 := hb 1 (by omega)
  have h2 := hb 2 (by omega)
  have h3 := hb 3 (by omega)
  simp only [Nat.add_zero] at h0
  interval_cases r
  · simp only [le32at, Nat.add_zero, pow_zero, Nat.div_one]; omega
  · simp only [le32at, pow_one]; omega
  · simp only [le32at]; norm_num; omega
  · simp only [le32at]; norm_num; omega

theorem le32at_lt (m : Img) (p : Nat) (hb : ∀ j, j < 4 → m.byte (p + j) < 256) :
    le32at m p < M32 := by
  have h0 := hb 0 (by omega)
  have h1 := hb 1 (by omega)
  have h2 := hb 2 (by omega)
  have h3 := hb 3 (by omega)
  simp only [Nat.add_zero] at h0
  simp only [le32at, M32]; omega

/-! ## decrypt_antidec loop lemmas -/

theorem adGo_len : ∀ (c e xm am sm : Nat) (m : Img), (adGo c e xm am sm m).len = m.len := by
  intro c
  induction c with
  | zero => intro e xm am sm m; rfl
  | succ c ih =>
    intro e xm am sm m
    rw [adGo, ih]
    rfl

theorem adGo_frame : ∀ (c e xm am sm : Nat) (m : Img) (i : Nat),
    4 * c ≤ e → (i < e - 4 * c ∨ e ≤ i) → (adGo c e xm am sm m).byte i = m.byte i := by
  intro c
  induction c with
  | zero => intro e xm am sm m i h1 h2; rfl
  | succ c ih =>
    intro e xm am sm m i h1 h2
    rw [adGo, ih (e - 4) _ _ _ _ i (by omega) (by omega)]
    exact write4_frame _ _ _ _ (by omega)

theorem adMasks_shift (xm am sm : Nat) : ∀ k,
    adMasks xm am sm (k + 1) = adMasks (wsub xm sm) (wadd (swap32 am) 1) sm k := by
  intro k
  induction k with
  | zero => rfl
  | succ k ih =>
    show (wsub (adMasks xm am sm (k + 1)).1 sm, wadd (swap32 (adMasks xm am sm (k + 1)).2) 1) = _
    rw [ih]
    rfl

theorem adGo_word : ∀ (c e xm am sm : Nat) (m : Img),
    4 * c ≤ e → ∀ k, k < c → ∀ r, r < 4 →
    (adGo c e xm am sm m).byte (e - 4 * (k + 1) + r) =
      adStep (adMasks xm am sm k).1 (adMasks xm am sm k).2
        (le32at m (e - 4 * (k + 1))) / 256 ^ r % 256 := by
  intro c
  induction c with
  | zero => intro e xm am sm m h k hk; omega
  | succ c ih =>
    intro e xm am sm m h k hk r hr
    rw [adGo]
    cases k with
    | zero =>
      rw [adGo_frame c (e - 4) _ _ _ _ _ (by omega) (by omega)]
      have he : e - 4 * (0 + 1) = e - 4 := by omega
      rw [he]
      exact write4_byte _ _ _ _ hr
    | succ k =>
      have h1 : e - 4 * (k + 1 + 1) + r = e - 4 - 4 * (k + 1) + r := by omega
      have h2 : e - 4 * (k + 1 + 1) = e - 4 - 4 * (k + 1) := by omega
      rw [h1, ih (e - 4) _ _ _ _ (by omega) k (by omega) r hr,
        le32at_write4_frame _ _ _ _ (by omega), ← adMasks_shift, h2]

theorem adMasks_lt (xm am sm : Nat) (hx : xm < M32) (ha : am < M32) :
    ∀ k, (adMasks xm am sm k).1 < M32 ∧ (adMasks xm am sm k).2 < M32 := by
  intro k
  cases k with
  | zero => exact ⟨hx, ha⟩
  | succ k => exact ⟨wsub_lt _ _, wadd_lt _ _⟩

theorem le32at_of_bytes (n : Img) (q X : Nat)
    (h : ∀ r, r < 4 → n.byte (q + r) = X / 256 ^ r % 256) : le32at n q = X % M32 := by
  have h0 := h 0 (by omega)
  have h1 := h 1 (by omega)
  have h2 := h 2 (by omega)
  have h3 := h 3 (by omega)
  simp only [Nat.add_zero, pow_zero, Nat.div_one, pow_one] at h0 h1 h2 h3
  rw [le32at, h0, h1, h2, h3]
  norm_num
  exact le32_recompose X

/-- Claim C1: for exe_load_offset within the buffer, decrypt_antidec rewrites
the region from exe_load_offset to end of file as 4-byte little-endian words
from the end toward the start — the word k words from the end is XORed with
the xor mask, added to the add mask (wrapping) and byte-swapped, under masks
evolved k times (xor_mask -= sub_mask, add_mask = swap_bytes(add_mask) + 1,
sub_mask constant) — and the cursor ends at exe_load_offset + header_start + 4. -/
theorem c1_decrypt_antidec (s : Cur) (off hs xm am sm : Nat)
    (hoff : off ≤ s.img.len) (hsum : off + hs + 4 < M32) :
    ∃ t, decrypt_antidec s off hs xm am sm = some t ∧
      t.pos = off + hs + 4 ∧ t.img.len = s.img.len ∧
      ∀ k, k < (s.img.len - off) / 4 → ∀ r, r < 4 →
        t.img.byte (s.img.len - 4 * (k + 1) + r) =
          adStep (adMasks xm am sm k).1 (adMasks xm am sm k).2
            (le32at s.img (s.img.len - 4 * (k + 1))) / 256 ^ r % 256 := by
  refine ⟨_, by rw [decrypt_antidec, if_pos hoff], w32_id _ hsum, adGo_len _ _ _ _ _ _, ?_⟩
  intro k hk r hr
  exact adGo_word _ _ _ _ _ _ (by omega) k hk r hr

theorem c1_decrypt_antidec_witness :
    (0 ≤ (listImg [10, 20, 30, 40]).len ∧ 0 + 5 + 4 < M32) ∧
    ∃ t, decrypt_antidec ⟨listImg [10, 20, 30, 40], 0⟩ 0 5 1 2 3 = some t ∧
      t.pos = 0 + 5 + 4 ∧ t.img.len = (listImg [10, 20, 30, 40]).len ∧
      ∀ k, k < ((listImg [10, 20, 30, 40]).len - 0) / 4 → ∀ r, r < 4 →
        t.img.byte ((listImg [10, 20, 30, 40]).len - 4 * (k + 1) + r) =
          adStep (adMasks 1 2 3 k).1 (adMasks 1 2 3 k).2
            (le32at (listImg [10, 20, 30, 40])
              ((listImg [10, 20, 30, 40]).len - 4 * (k + 1))) / 256 ^ r % 256 :=
  ⟨⟨by decide, by decide⟩,
    c1_decrypt_antidec ⟨listImg [10, 20, 30, 40], 0⟩ 0 5 1 2 3 (by decide) (by decide)⟩

/-- Claim C10: decrypt_antidec with exe_load_offset at most the buffer length
leaves every byte below exe_load_offset unchanged, and when the region length
is not a multiple of 4 it also leaves the first (region length mod 4) bytes
of the region unchanged — only whole words counted from the end are rewritten. -/
theorem c10_decrypt_antidec_frame (s : Cur) (off hs xm am sm : Nat)
    (hoff : off ≤ s.img.len) :
    ∃ t, decrypt_antidec s off hs xm am sm = some t ∧
      (∀ i, i < off → t.img.byte i = s.img.byte i) ∧
      (∀ j, j < (s.img.len - off) % 4 → t.img.byte (off + j) = s.img.byte (off + j)) := by
  refine ⟨_, by rw [decrypt_antidec, if_pos hoff], ?_, ?_⟩
  · intro i hi
    exact adGo_frame _ _ _ _ _ _ _ (by omega) (by omega)
  · intro j hj
    exact adGo_frame _ _ _ _ _ _ _ (by omega) (by omega)

theorem c10_decrypt_antidec_frame_witness :
    1 ≤ (listImg [1, 2, 3, 4, 5, 6, 7]).len ∧
    ∃ t, decrypt_antidec ⟨listImg [1, 2, 3, 4, 5, 6, 7], 0⟩ 1 9 7 8 9 = some t ∧
      (∀ i, i < 1 → t.img.byte i = (listImg [1, 2, 3, 4, 5, 6, 7]).byte i) ∧
      (∀ j, j < ((listImg [1, 2, 3, 4, 5, 6, 7]).len - 1) % 4 →
        t.img.byte (1 + j) = (listImg [1, 2, 3, 4, 5, 6, 7]).byte (1 + j)) :=
  ⟨by decide, c10_decrypt_antidec_frame ⟨listImg [1, 2, 3, 4, 5, 6, 7], 0⟩ 1 9 7 8 9 (by decide)⟩

/-! ## The antidec2 round trip -/

theorem adEncGo_len (xm am sm : Nat) :
    ∀ (c p : Nat) (m : Img), (adEncGo xm am sm c p m).len = m.len := by
  intro c
  induction c with
  | zero => intro p m; rfl
  | succ c ih =>
    intro p m
    rw [adEncGo, ih]
    rfl

theorem adEncGo_frame (xm am sm : Nat) : ∀ (c p : Nat) (m : Img) (i : Nat),
    (i < p ∨ p + 4 * c ≤ i) → (adEncGo xm am sm c p m).byte i = m.byte i := by
  intro c
  induction c with
  | zero => intro p m i h; rfl
  | succ c ih =>
    intro p m i h
    rw [adEncGo, ih (p + 4) _ i (by omega)]
    exact write4_frame _ _ _ _ (by omega)

theorem adEncGo_word (xm am sm : Nat) : ∀ (c p : Nat) (m : Img),
    ∀ j, j < c → ∀ r, r < 4 →
    (adEncGo xm am sm c p m).byte (p + 4 * j + r) =
      adEncStep (adMasks xm am sm (c - 1 - j)).1 (adMasks xm am sm (c - 1 - j)).2
        (le32at m (p + 4 * j)) / 256 ^ r % 256 := by
  intro c
  induction c with
  | zero => intro p m j hj; omega
  | succ c ih =>
    intro p m j hj r hr
    rw [adEncGo]
    cases j with
    | zero =>
      rw [adEncGo_frame xm am sm c (p + 4) _ _ (by omega)]
      have he : p + 4 * 0 = p := by omega
      rw [he]
      exact write4_byte _ _ _ _ hr
    | succ j =>
      have h1 : p + 4 * (j + 1) + r = p + 4 + 4 * j + r := by omega
      have h2 : p + 4 * (j + 1) = p + 4 + 4 * j := by omega
      have h3 : c + 1 - 1 - (j + 1) = c - 1 - j := by omega
      rw [h1, ih (p + 4) _ j (by omega) r hr, le32at_write4_frame _ _ _ _ (by omega), h2, h3]

/-- Claim C2: encrypting any buffer whose length is a multiple of 4 with the
antidec2 forward transform (the inverse per-word operations applied
front-to-back) and then running decrypt_antidec over the whole buffer
reproduces the original buffer exactly, for any u32 mask triple. -/
theorem c2_antidec_roundtrip (m : Img) (xm am sm hs pos : Nat)
    (hlen : m.len % 4 = 0) (hbytes : ∀ i, i < m.len → m.byte i < 256)
    (hx : xm < M32) (ha : am < M32) (hsm : sm < M32) :
    ∃ t, decrypt_antidec ⟨antidec_encrypt xm am sm m, pos⟩ 0 hs xm am sm = some t ∧
      t.img.len = m.len ∧ ∀ i, i < m.len → t.img.byte i = m.byte i := by
  have hel : (antidec_encrypt xm am sm m).len = m.len := adEncGo_len _ _ _ _ _ _
  refine ⟨_, by rw [decrypt_antidec, if_pos (by omega)], by simp [adGo_len, hel], ?_⟩
  intro i hi
  set W := m.len / 4 with hW
  have hlen4 : m.len = 4 * W := by omega
  set j := i / 4 with hj
  set r := i % 4 with hr
  have hjW : j < W := by omega
  have hir : i = m.len - 4 * ((W - 1 - j) + 1) + r := by omega
  have hcount : (Cur.mk (antidec_encrypt xm am sm m) pos).img.len - 0 = m.len := by
    simpa using hel
  -- the decrypted byte, via the decryption loop characterization
  have hstep1 :
      (adGo (((Cur.mk (antidec_encrypt xm am sm m) pos).img.len - 0) / 4)
          (Cur.mk (antidec_encrypt xm am sm m) pos).img.len xm am sm
          (antidec_encrypt xm am sm m)).byte (m.len - 4 * ((W - 1 - j) + 1) + r) =
        adStep (adMasks xm am sm (W - 1 - j)).1 (adMasks xm am sm (W - 1 - j)).2
          (le32at (antidec_encrypt xm am sm m) (m.len - 4 * ((W - 1 - j) + 1))) / 256 ^ r % 256 := by
    have := adGo_word (((Cur.mk (antidec_encrypt xm am sm m) pos).img.len - 0) / 4)
      (Cur.mk (antidec_encrypt xm am sm m) pos).img.len xm am sm
      (antidec_encrypt xm am sm m) (by simp only [hcount]; omega) (W - 1 - j)
      (by simp only [hcount]; omega) r (by omega)
    simpa only [hcount, hel] using this
  -- the encrypted word at position 4*j
  have hpos : m.len - 4 * ((W - 1 - j) + 1) = 4 * j := by omega
  have hencw : le32at (antidec_encrypt xm am sm m) (4 * j) =
      adEncStep (adMasks xm am sm (W - 1 - j)).1 (adMasks xm am sm (W - 1 - j)).2
        (le32at m (4 * j)) % M32 := by
    have hb : ∀ r2, r2 < 4 → (antidec_encrypt xm am sm m).byte (4 * j + r2) =
        adEncStep (adMasks xm am sm (W - 1 - j)).1 (adMasks xm am sm (W - 1 - j)).2
          (le32at m (4 * j)) / 256 ^ r2 % 256 := by
      intro r2 hr2
      have := adEncGo_word xm am sm W 0 m j hjW r2 hr2
      simp only [Nat.zero_add] at this
      show (adEncGo xm am sm (m.len / 4) (m.len % 4) m).byte (4 * j + r2) = _
      rw [hlen, ← hW]
      exact this
    have := le32at_of_bytes _ (4 * j + 0) _ (by intro r2 h2; simpa using hb r2 h2)
    simpa using this
  -- the original word and cancellation
  have hwlt : le32at m (4 * j) < M32 := le32at_lt m (4 * j) (by intro q hq; exact hbytes _ (by omega))
  have hxk := adMasks_lt xm am sm hx ha (W - 1 - j)
  have hXlt : adEncStep (adMasks xm am sm (W - 1 - j)).1 (adMasks xm am sm (W - 1 - j)).2
      (le32at m (4 * j)) < M32 := xor_lt_M32 _ _ (wsub_lt _ _) hxk.1
  have hcancel : adStep (adMasks xm am sm (W - 1 - j)).1 (adMasks xm am sm (W - 1 - j)).2
      (adEncStep (adMasks xm am sm (W - 1 - j)).1 (adMasks xm am sm (W - 1 - j)).2
        (le32at m (4 * j))) = le32at m (4 * j) := by
    rw [adStep, adEncStep, Nat.xor_cancel_right, wadd_wsub_cancel _ _ (swap32_lt _),
      swap32_swap32 _ hwlt]
  show (adGo _ _ _ _ _ _).byte i = m.byte i
  rw [hir, hstep1, hpos, hencw, Nat.mod_eq_of_lt hXlt, hcancel]
  exact (bytes_le32at m (4 * j) r (by omega) (by intro q hq; exact hbytes _ (by omega))).symm

theorem c2_antidec_roundtrip_witness :
    ((listImg [1, 2, 3, 4]).len % 4 = 0 ∧
      (∀ i, i < (listImg [1, 2, 3, 4]).len → (listImg [1, 2, 3, 4]).byte i < 256) ∧
      5 < M32 ∧ 6 < M32 ∧ 7 < M32) ∧
    ∃ t, decrypt_antidec ⟨antidec_encrypt 5 6 7 (listImg [1, 2, 3, 4]), 0⟩ 0 0 5 6 7 = some t ∧
      t.img.len = (listImg [1, 2, 3, 4]).len ∧
      ∀ i, i < (listImg [1, 2, 3, 4]).len → t.img.byte i = (listImg [1, 2, 3, 4]).byte i :=
  ⟨⟨by decide, by decide, by decide, by decide, by decide⟩,
    c2_antidec_roundtrip (listImg [1, 2, 3, 4]) 5 6 7 0 0 (by decide) (by decide)
      (by decide) (by decide) (by decide)⟩

/-! ## decrypt_gm81 loop lemmas -/

theorem gm81Go_len : ∀ (c p s1 s2 : Nat) (m : Img), (gm81Go c p s1 s2 m).len = m.len := by
  intro c
  induction c with
  | zero => intro p s1 s2 m; rfl
  | succ c ih =>
    intro p s1 s2 m
    rw [gm81Go, ih]
    rfl

theorem gm81Go_frame : ∀ (c p s1 s2 : Nat) (m : Img) (i : Nat),
    (i < p ∨ p + 4 * c ≤ i) → (gm81Go c p s1 s2 m).byte i = m.byte i := by
  intro c
  induction c with
  | zero => intro p s1 s2 m i h; rfl
  | succ c ih =>
    intro p s1 s2 m i h
    rw [gm81Go, ih (p + 4) _ _ _ i (by omega)]
    exact write4_frame _ _ _ _ (by omega)

theorem le32at_gm81Go_frame (c p s1 s2 : Nat) (m : Img) (x : Nat)
    (h : x + 4 ≤ p ∨ p + 4 * c ≤ x) : le32at (gm81Go c p s1 s2 m) x = le32at m x := by
  simp only [le32at]
  rw [gm81Go_frame _ _ _ _ _ _ (by omega), gm81Go_frame _ _ _ _ _ _ (by omega),
    gm81Go_frame _ _ _ _ _ _ (by omega), gm81Go_frame _ _ _ _ _ _ (by omega)]

theorem gm81Seeds_shift (s1 s2 : Nat) : ∀ k,
    gm81Seeds s1 s2 (k + 1) = gm81Seeds (gm81Step1 s1) (gm81Step2 s2) k := by
  intro k
  induction k with
  | zero => rfl
  | succ k ih =>
    show (gm81Step1 (gm81Seeds s1 s2 (k + 1)).1, gm81Step2 (gm81Seeds s1 s2 (k + 1)).2) = _
    rw [ih]
    rfl

theorem gm81Go_word : ∀ (c p s1 s2 : Nat) (m : Img), ∀ k, k < c → ∀ r, r < 4 →
    (gm81Go c p s1 s2 m).byte (p + 4 * k + r) =
      (gm81Mask (gm81Seeds s1 s2 (k + 1)).1 (gm81Seeds s1 s2 (k + 1)).2 ^^^
        le32at m (p + 4 * k)) / 256 ^ r % 256 := by
  intro c
  induction c with
  | zero => intro p s1 s2 m k hk; omega
  | succ c ih =>
    intro p s1 s2 m k hk r hr
    rw [gm81Go]
    cases k with
    | zero =>
      rw [gm81Go_frame c (p + 4) _ _ _ _ (by omega)]
      have he : p + 4 * 0 = p := by omega
      rw [he]
      exact write4_byte _ _ _ _ hr
    | succ k =>
      have h1 : p + 4 * (k + 1) + r = p + 4 + 4 * k + r := by omega
      have h2 : p + 4 * (k + 1) = p + 4 + 4 * k := by omega
      rw [h1, ih (p + 4) _ _ _ k (by omega) r hr, le32at_write4_frame _ _ _ _ (by omega),
        ← gm81Seeds_shift, h2]

/-- seed2 as decrypt_gm81 derives it: the CRC-32 of the UTF-16 expansion of
the hash key built from the dword read at offset p. -/
def gm81Seed2 (m : Img) (p : Nat) : Nat := crc_32 (utf16 (hashKeyBytes (le32at m p)))

/-- The start of the GM8.1 encrypted region: (seed2 & 0xFF) + 10 bytes past
the position following the two seed reads at p. -/
def gm81Start (m : Img) (p : Nat) : Nat := p + 8 + ((gm81Seed2 m p &&& 255) + 10)

theorem gm81Mask_lt (s1 s2 : Nat) : gm81Mask s1 s2 < M32 := by
  have h1 : s2 &&& 0xFFFF ≤ 0xFFFF := Nat.and_le_right
  have h2 : w32 (s1 <<< 16) + (s2 &&& 0xFFFF) < M32 := by
    rw [Nat.shiftLeft_eq]
    simp only [w32, M32] at *
    omega
  exact h2

theorem decrypt_gm81_eq (s : Cur) (h8 : s.pos + 8 ≤ s.img.len) :
    decrypt_gm81 s = some ⟨gm81Go ((s.img.len - gm81Start s.img s.pos) / 4)
      (gm81Start s.img s.pos) (le32at s.img (s.pos + 4)) (gm81Seed2 s.img s.pos) s.img,
      s.pos + 8⟩ := by
  have h1 : rdU32 s = some (le32at s.img s.pos, ⟨s.img, s.pos + 4⟩) := by
    rw [rdU32, if_pos (by omega)]
  have h2 : rdU32 (⟨s.img, s.pos + 4⟩ : Cur) =
      some (le32at s.img (s.pos + 4), ⟨s.img, s.pos + 8⟩) := by
    rw [rdU32, if_pos (by show s.pos + 4 + 4 ≤ s.img.len; omega)]
  simp only [decrypt_gm81, h1, h2, gm81Seed2, gm81Start]

/-- Claim C3: decrypt_gm81 reads the two seeds, starts the encrypted region
(seed2 & 0xFF) + 10 bytes after the position following the two reads, XORs
every whole little-endian dword until end of stream with the mask
(seed1 << 16) + (seed2 & 0xFFFF) under seeds evolved per word by
seed = (seed & 0xFFFF)*K + (seed >> 16) with K = 0x9069 / 0x4650, and finally
restores the cursor to just after the two seed reads. -/
theorem c3_decrypt_gm81 (s : Cur) (h8 : s.pos + 8 ≤ s.img.len) :
    ∃ t, decrypt_gm81 s = some t ∧
      t.pos = s.pos + 8 ∧ t.img.len = s.img.len ∧
      (∀ i, i < gm81Start s.img s.pos → t.img.byte i = s.img.byte i) ∧
      (∀ i, gm81Start s.img s.pos +
          4 * ((s.img.len - gm81Start s.img s.pos) / 4) ≤ i →
        t.img.byte i = s.img.byte i) ∧
      (∀ k, k < (s.img.len - gm81Start s.img s.pos) / 4 → ∀ r, r < 4 →
        t.img.byte (gm81Start s.img s.pos + 4 * k + r) =
          (gm81Mask (gm81Seeds (le32at s.img (s.pos + 4)) (gm81Seed2 s.img s.pos) (k + 1)).1
              (gm81Seeds (le32at s.img (s.pos + 4)) (gm81Seed2 s.img s.pos) (k + 1)).2 ^^^
            le32at s.img (gm81Start s.img s.pos + 4 * k)) / 256 ^ r % 256) := by
  refine ⟨_, decrypt_gm81_eq s h8, rfl, gm81Go_len _ _ _ _ _, ?_, ?_, ?_⟩
  · intro i hi
    exact gm81Go_frame _ _ _ _ _ _ (by omega)
  · intro i hi
    exact gm81Go_frame _ _ _ _ _ _ (by omega)
  · intro k hk r hr
    exact gm81Go_word _ _ _ _ _ k hk r hr

theorem c3_decrypt_gm81_witness :
    ((Cur.mk (listImg [1, 0, 0, 0, 2, 0, 0, 0, 9, 9, 9, 9]) 0).pos + 8 ≤
      (listImg [1, 0, 0, 0, 2, 0, 0, 0, 9, 9, 9, 9]).len) ∧
    ∃ t, decrypt_gm81 ⟨listImg [1, 0, 0, 0, 2, 0, 0, 0, 9, 9, 9, 9], 0⟩ = some t ∧
      t.pos = 0 + 8 ∧ t.img.len = (listImg [1, 0, 0, 0, 2, 0, 0, 0, 9, 9, 9, 9]).len ∧
      (∀ i, i < gm81Start (listImg [1, 0, 0, 0, 2, 0, 0, 0, 9, 9, 9, 9]) 0 →
        t.img.byte i = (listImg [1, 0, 0, 0, 2, 0, 0, 0, 9, 9, 9, 9]).byte i) ∧
      (∀ i, gm81Start (listImg [1, 0, 0, 0, 2, 0, 0, 0, 9, 9, 9, 9]) 0 +
          4 * (((listImg [1, 0, 0, 0, 2, 0, 0, 0, 9, 9, 9, 9]).len -
            gm81Start (listImg [1, 0, 0, 0, 2, 0, 0, 0, 9, 9, 9, 9]) 0) / 4) ≤ i →
        t.img.byte i = (listImg [1, 0, 0, 0, 2, 0, 0, 0, 9, 9, 9, 9]).byte i) ∧
      (∀ k, k < ((listImg [1, 0, 0, 0, 2, 0, 0, 0, 9, 9, 9, 9]).len -
          gm81Start (listImg [1, 0, 0, 0, 2, 0, 0, 0, 9, 9, 9, 9]) 0) / 4 → ∀ r, r < 4 →
        t.img.byte (gm81Start (listImg [1, 0, 0, 0, 2, 0, 0, 0, 9, 9, 9, 9]) 0 + 4 * k + r) =
          (gm81Mask
              (gm81Seeds (le32at (listImg [1, 0, 0, 0, 2, 0, 0, 0, 9, 9, 9, 9]) (0 + 4))
                (gm81Seed2 (listImg [1, 0, 0, 0, 2, 0, 0, 0, 9, 9, 9, 9]) 0) (k + 1)).1
              (gm81Seeds (le32at (listImg [1, 0, 0, 0, 2, 0, 0, 0, 9, 9, 9, 9]) (0 + 4))
                (gm81Seed2 (listImg [1, 0, 0, 0, 2, 0, 0, 0, 9, 9, 9, 9]) 0) (k + 1)).2 ^^^
            le32at (listImg [1, 0, 0, 0, 2, 0, 0, 0, 9, 9, 9, 9])
              (gm81Start (listImg [1, 0, 0, 0, 2, 0, 0, 0, 9, 9, 9, 9]) 0 + 4 * k)) /
            256 ^ r % 256) :=
  ⟨by decide, c3_decrypt_gm81 ⟨listImg [1, 0, 0, 0, 2, 0, 0, 0, 9, 9, 9, 9], 0⟩ (by decide)⟩

theorem gm81_twice_aux (s : Cur) (hv : ∀ i, i < s.img.len → s.img.byte i < 256)
    (h8 : s.pos + 8 ≤ s.img.len) :
    ∃ t u, decrypt_gm81 s = some t ∧ decrypt_gm81 ⟨t.img, s.pos⟩ = some u ∧
      u.img.len = s.img.len ∧ ∀ i, i < s.img.len → u.img.byte i = s.img.byte i := by
  have hd1 := decrypt_gm81_eq s h8
  set m := s.img with hm
  set p := s.pos with hp
  set s2 := gm81Seed2 m p with hs2
  set s1 := le32at m (p + 4) with hs1
  set st := gm81Start m p with hst
  set W := (m.len - st) / 4 with hW
  set tI := gm81Go W st s1 s2 m with htI
  have hstp : p + 8 ≤ st := by
    rw [hst, gm81Start]
    omega
  have htlen : tI.len = m.len := gm81Go_len _ _ _ _ _
  have hle1 : le32at tI p = le32at m p := le32at_gm81Go_frame _ _ _ _ _ _ (by omega)
  have hle2 : le32at tI (p + 4) = le32at m (p + 4) :=
    le32at_gm81Go_frame _ _ _ _ _ _ (by omega)
  have hseed2 : gm81Seed2 tI p = s2 := by rw [gm81Seed2, hle1, hs2, gm81Seed2]
  have hstart2 : gm81Start tI p = st := by rw [gm81Start, hseed2, hst, gm81Start, hs2]
  have hd2 : decrypt_gm81 ⟨tI, p⟩ = some ⟨gm81Go W st s1 s2 tI, p + 8⟩ := by
    have h := decrypt_gm81_eq ⟨tI, p⟩ (show p + 8 ≤ tI.len by omega)
    dsimp only at h
    rw [hstart2, hle2, hseed2, htlen] at h
    exact h
  refine ⟨_, _, hd1, hd2, ?_, ?_⟩
  · show (gm81Go W st s1 s2 tI).len = m.len
    rw [gm81Go_len, htlen]
  · intro i hi
    show (gm81Go W st s1 s2 tI).byte i = m.byte i
    have hdiv : 4 * W ≤ m.len - st := by omega
    by_cases h1 : i < st
    · rw [gm81Go_frame _ _ _ _ _ _ (Or.inl h1)]
      exact gm81Go_frame _ _ _ _ _ _ (Or.inl h1)
    · by_cases h2 : st + 4 * W ≤ i
      · rw [gm81Go_frame _ _ _ _ _ _ (Or.inr h2)]
        exact gm81Go_frame _ _ _ _ _ _ (Or.inr h2)
      · push_neg at h1 h2
        set k := (i - st) / 4 with hk
        set r := (i - st) % 4 with hr
        have hkW : k < W := by omega
        have hrw : r < 4 := by omega
        have hi2 : i = st + 4 * k + r := by omega
        have hbound : st + 4 * k + 4 ≤ m.len := by omega
        have hu := gm81Go_word W st s1 s2 tI k hkW r hrw
        have hwb : ∀ r2, r2 < 4 → tI.byte (st + 4 * k + r2) =
            (gm81Mask (gm81Seeds s1 s2 (k + 1)).1 (gm81Seeds s1 s2 (k + 1)).2 ^^^
              le32at m (st + 4 * k)) / 256 ^ r2 % 256 :=
          fun r2 h => gm81Go_word W st s1 s2 m k hkW r2 h
        have hle : le32at tI (st + 4 * k) =
            (gm81Mask (gm81Seeds s1 s2 (k + 1)).1 (gm81Seeds s1 s2 (k + 1)).2 ^^^
              le32at m (st + 4 * k)) % M32 :=
          le32at_of_bytes _ _ _ hwb
        have hwlt : le32at m (st + 4 * k) < M32 :=
          le32at_lt _ _ (fun q hq => hv _ (by omega))
        have hXlt : gm81Mask (gm81Seeds s1 s2 (k + 1)).1 (gm81Seeds s1 s2 (k + 1)).2 ^^^
            le32at m (st + 4 * k) < M32 :=
          xor_lt_M32 _ _ (gm81Mask_lt _ _) hwlt
        rw [hi2, hu, hle, Nat.mod_eq_of_lt hXlt, Nat.xor_cancel_left]
        exact (bytes_le32at m (st + 4 * k) r hrw (fun q hq => hv _ (by omega))).symm

/-- Claim C6 (amended): applying decrypt_gm81 twice from the same starting
cursor position DOES restore the buffer: the mask stream depends only on the
two seed dwords, which lie before the rewritten region, so the second pass
XORs every word with the same mask as the first. -/
theorem c6_gm81_double_application (s : Cur) (hv : ∀ i, i < s.img.len → s.img.byte i < 256)
    (h8 : s.pos + 8 ≤ s.img.len) :
    ∃ t u, decrypt_gm81 s = some t ∧ decrypt_gm81 ⟨t.img, s.pos⟩ = some u ∧
      u.img.len = s.img.len ∧ ∀ i, i < s.img.len → u.img.byte i = s.img.byte i :=
  gm81_twice_aux s hv h8

/-- The concrete buffer for the C6 counterexample: zeroed seeds (so seed2 =
crc32 of key "_MJD0#RWK", whose low byte makes the skip 74 bytes) followed by
one encrypted word. -/
def c6buf : List Nat := List.replicate 82 0 ++ [1, 2, 3, 4]

/-- Claim C6 counterexample: on this buffer a single run of decrypt_gm81
changes the contents, yet running it twice from cursor position 0 returns the
buffer exactly to its original contents — refuting the claim that a double
application does not restore the buffer. -/
theorem c6_counterexample :
    ((decrypt_gm81 ⟨listImg c6buf, 0⟩).bind fun t => decrypt_gm81 ⟨t.img, 0⟩).map
        (fun u => (List.range c6buf.length).map u.img.byte) = some c6buf ∧
    (decrypt_gm81 ⟨listImg c6buf, 0⟩).map
        (fun t => (List.range c6buf.length).map t.img.byte) ≠ some c6buf := by
  constructor
  · decide
  · decide

theorem c6_gm81_double_application_witness :
    ((∀ i, i < (listImg c6buf).len → (listImg c6buf).byte i < 256) ∧
      0 + 8 ≤ (listImg c6buf).len) ∧
    ∃ t u, decrypt_gm81 ⟨listImg c6buf, 0⟩ = some t ∧ decrypt_gm81 ⟨t.img, 0⟩ = some u ∧
      u.img.len = (listImg c6buf).len ∧
      ∀ i, i < (listImg c6buf).len → u.img.byte i = (listImg c6buf).byte i :=
  ⟨⟨by decide, by decide⟩,
    c6_gm81_double_application ⟨listImg c6buf, 0⟩ (by decide) (by decide)⟩

/-! ## The GM8.1 header search (check_gm81 scan) -/

theorem gm81ScanGoF_found (m : Img) (n : Nat) : ∀ (f i j p : Nat),
    gm81ScanGoF m n f i = .ok (some j, p) →
    i ≤ j ∧ p = j + 8 ∧ maskSum m j = n ∧ ∀ k, i ≤ k → k < j → maskSum m k ≠ n := by
  intro f
  induction f with
  | zero => intro i j p h; exact absurd h (by rw [gm81ScanGoF]; simp)
  | succ f ih =>
    intro i j p h
    rw [gm81ScanGoF] at h
    by_cases h4 : i + 4 ≤ m.len
    · rw [if_pos h4] at h
      by_cases h8 : i + 8 ≤ m.len
      · rw [if_pos h8] at h
        by_cases hm : maskSum m i = n
        · rw [if_pos hm] at h
          obtain ⟨rfl, rfl⟩ : i = j ∧ i + 8 = p := by
            simpa using h
          exact ⟨le_refl _, rfl, hm, fun k hk1 hk2 => absurd hk1 (by omega)⟩
        · rw [if_neg hm] at h
          by_cases he : m.len ≤ i + 9
          · rw [if_pos he] at h
            simp at h
          · rw [if_neg he] at h
            obtain ⟨h1, h2, h3, h4a⟩ := ih (i + 1) j p h
            refine ⟨by omega, h2, h3, ?_⟩
            intro k hk1 hk2
            by_cases hki : k = i
            · rw [hki]; exact hm
            · exact h4a k (by omega) hk2
      · rw [if_neg h8] at h; simp at h
    · rw [if_neg h4] at h; simp at h

theorem gm81ScanGoF_none (m : Img) (n : Nat) : ∀ (f i p : Nat),
    gm81ScanGoF m n f i = .ok (none, p) →
    ∀ k, i ≤ k → k + 9 ≤ m.len → maskSum m k ≠ n := by
  intro f
  induction f with
  | zero => intro i p h; exact absurd h (by rw [gm81ScanGoF]; simp)
  | succ f ih =>
    intro i p h
    rw [gm81ScanGoF] at h
    by_cases h4 : i + 4 ≤ m.len
    · rw [if_pos h4] at h
      by_cases h8 : i + 8 ≤ m.len
      · rw [if_pos h8] at h
        by_cases hm : maskSum m i = n
        · rw [if_pos hm] at h; simp at h
        · rw [if_neg hm] at h
          by_cases he : m.len ≤ i + 9
          · rw [if_pos he] at h
            intro k hk1 hk2
            have hki : k = i := by omega
            rw [hki]; exact hm
          · rw [if_neg he] at h
            intro k hk1 hk2
            by_cases hki : k = i
            · rw [hki]; exact hm
            · exact ih (i + 1) p h k (by omega) hk2
      · rw [if_neg h8] at h; simp at h
    · rw [if_neg h4] at h; simp at h

/-- Claim C8 (amended): the GM8.1 header search of check_gm81 scans forward
byte-by-byte — every successive candidate offset is 1 byte (not 4 bytes) past
the previous one — accepting the first offset at or after the start whose
masked dword pair sums to the magic, and gives up (classifying as not GM8.1)
once the next candidate's 8-byte window would reach end of file. -/
theorem c8_gm81_scan (m : Img) (n i0 : Nat) :
    (∀ j p, gm81ScanGo m n i0 = .ok (some j, p) →
      i0 ≤ j ∧ p = j + 8 ∧ maskSum m j = n ∧ ∀ k, i0 ≤ k → k < j → maskSum m k ≠ n) ∧
    (∀ p, gm81ScanGo m n i0 = .ok (none, p) →
      ∀ k, i0 ≤ k → k + 9 ≤ m.len → maskSum m k ≠ n) :=
  ⟨fun j p h => gm81ScanGoF_found m n _ i0 j p h,
   fun p h => gm81ScanGoF_none m n _ i0 p h⟩

/-- The concrete 12-byte image for the C8 counterexample and witness: the
masked sum matches at offset 1 only; offsets 0 and 4 (the candidates a
4-byte-stepped scan would test) do not match. -/
def c8img : Img := listImg [0, 0, 0, 0, 0, 7, 0, 0, 0, 0, 0, 0]

/-- Claim C8 counterexample: on c8img with magic 7 the search accepts offset
1 — one byte past the start, not four — while the dword-aligned candidates 0
and 4 do not match, so a dword-by-dword scan (4-byte steps, as the claim
states) could never stop there. -/
theorem c8_counterexample :
    gm81ScanGo c8img 7 0 = .ok (some 1, 9) ∧
    maskSum c8img 0 ≠ 7 ∧ maskSum c8img 4 ≠ 7 ∧ maskSum c8img 1 = 7 := by
  refine ⟨by rfl, by decide, by decide, by decide⟩

theorem c8_gm81_scan_witness :
    gm81ScanGo c8img 7 0 = .ok (some 1, 9) ∧
    (0 ≤ 1 ∧ 9 = 1 + 8 ∧ maskSum c8img 1 = 7 ∧ ∀ k, 0 ≤ k → k < 1 → maskSum c8img k ≠ 7) :=
  ⟨by rfl, (c8_gm81_scan c8img 7 0).1 1 9 (by rfl)⟩

/-! ## Logger independence (find_gamedata) -/

theorem except_bind_ok {α β : Type} (x : α) (f : α → Except RErr β) :
    (Except.ok x >>= f : Except RErr β) = f x := rfl

theorem except_bind_error {α β : Type} (e : RErr) (f : α → Except RErr β) :
    (Except.error e >>= f : Except RErr β) = Except.error e := rfl

theorem skipVer_agree (m : Img) : ∀ (f p : Nat), f = m.len - p →
    (∀ q, skipVerFGo m f p = some q → skipVerTGo m f p = q) ∧
    (skipVerFGo m f p = none → m.len ≤ skipVerTGo m f p) := by
  intro f
  induction f with
  | zero =>
    intro p hf
    constructor
    · intro q h
      exact absurd h (by rw [skipVerFGo]; simp)
    · intro h
      show m.len ≤ p
      omega
  | succ f ih =>
    intro p hf
    constructor
    · intro q h
      rw [skipVerFGo] at h
      rw [skipVerTGo]
      by_cases hz : m.byte p = 0
      · rw [if_pos hz] at h
        rw [if_pos hz]
        simpa using h
      · rw [if_neg hz] at h
        rw [if_neg hz]
        exact (ih (p + 1) (by omega)).1 q h
    · intro h
      rw [skipVerFGo] at h
      rw [skipVerTGo]
      by_cases hz : m.byte p = 0
      · rw [if_pos hz] at h
        simp at h
      · rw [if_neg hz] at h
        rw [if_neg hz]
        exact (ih (p + 1) (by omega)).2 h

theorem skipVersion_true (c : Cur) :
    skipVersion true c = .ok ⟨c.img, skipVerT c.img c.pos⟩ := rfl

theorem skipVersion_false_some (c : Cur) (q : Nat) (h : skipVerF c.img c.pos = some q) :
    skipVersion false c = .ok ⟨c.img, q⟩ := by
  unfold skipVersion
  rw [h]
  rfl

theorem skipVersion_false_none (c : Cur) (h : skipVerF c.img c.pos = none) :
    skipVersion false c = .error .ioErr := by
  unfold skipVersion
  rw [h]
  rfl

theorem fgUpxTail_eof (fuel : Nat) (c : Cur) (h : c.img.len < c.pos + 4) :
    fgUpxTail fuel c = .error .ioErr := by
  have h1 : rdU32e c = .error .ioErr := by
    rw [rdU32e, rdU32, if_neg (by omega)]
  unfold fgUpxTail
  rw [h1]
  rfl

/-- Claim C9: find_gamedata run with any logger equals find_gamedata run with
no logger — same success or error outcome, same final buffer and cursor. The
only logger-dependent control flow is the UPX version-string skip, and both
its forms end in the same state. -/
theorem c9_logger_independence (fuel : Nat) (v : Bool) (s : Cur) :
    find_gamedata fuel v s = find_gamedata fuel false s := by
  cases v with
  | false => rfl
  | true =>
    unfold find_gamedata
    cases h0 : rdU32e (setPos s 0x170) with
    | error e => rfl
    | ok r =>
      obtain ⟨w0, c⟩ := r
      rw [except_bind_ok, except_bind_ok]
      dsimp only
      by_cases hw0 : w0 = 0x30585055
      · rw [if_pos hw0, if_pos hw0]
        cases h1 : rdU32e (seekBy c 36) with
        | error e => rfl
        | ok r1 =>
          obtain ⟨w1, c1⟩ := r1
          rw [except_bind_ok, except_bind_ok]
          dsimp only
          by_cases hw1 : w1 = 0x31585055
          · rw [if_pos hw1, if_pos hw1]
            cases hF : skipVerF (seekBy c1 76).img (seekBy c1 76).pos with
            | some q =>
              have hT : skipVerT (seekBy c1 76).img (seekBy c1 76).pos = q :=
                (skipVer_agree (seekBy c1 76).img ((seekBy c1 76).img.len -
                  (seekBy c1 76).pos) (seekBy c1 76).pos rfl).1 q hF
              rw [skipVersion_true, skipVersion_false_some _ q hF, hT]
            | none =>
              have hT : (seekBy c1 76).img.len ≤
                  skipVerT (seekBy c1 76).img (seekBy c1 76).pos :=
                (skipVer_agree (seekBy c1 76).img ((seekBy c1 76).img.len -
                  (seekBy c1 76).pos) (seekBy c1 76).pos rfl).2 hF
              rw [skipVersion_true, skipVersion_false_none _ hF,
                except_bind_ok, except_bind_error]
              exact fgUpxTail_eof fuel _ (by simpa using by omega)
          · rw [if_neg hw1, if_neg hw1]
      · rw [if_neg hw0, if_neg hw0]

/-! ## Read reduction lemmas -/

theorem rdBytes_ok (c : Cur) (n : Nat) (h : c.pos + n ≤ c.img.len) :
    rdBytes c n =
      .ok ((List.range n).map (fun i => c.img.byte (c.pos + i)), ⟨c.img, c.pos + n⟩) := by
  rw [rdBytes, if_pos h]

theorem rdU8e_ok (c : Cur) (h : c.pos < c.img.len) :
    rdU8e c = .ok (c.img.byte c.pos, ⟨c.img, c.pos + 1⟩) := by
  rw [rdU8e, rdU8, if_pos h]

theorem rdU32e_ok (c : Cur) (h : c.pos + 4 ≤ c.img.len) :
    rdU32e c = .ok (le32at c.img c.pos, ⟨c.img, c.pos + 4⟩) := by
  rw [rdU32e, rdU32, if_pos h]

/-! ## The UPX partial-packing outcome (find_gamedata) -/

/-- Claim C5 (amended): when the "UPX0" and "UPX1" headers both match but the
trailing "UPX!" magic marker read after the version string does not,
find_gamedata fails with the partial-packing error without falling through;
when "UPX0" matches but "UPX1" does not, the detector instead falls through
to the antidec2 and standard-format probes (see the counterexample). -/
theorem c5_upx_partial (fuel : Nat) (v : Bool) (s : Cur) (p : Nat)
    (hlen : 0x19C ≤ s.img.len)
    (h1 : le32at s.img 0x170 = 0x30585055)
    (h2 : le32at s.img 0x198 = 0x31585055)
    (h3 : skipVerF s.img 0x1E8 = some p)
    (h4 : p + 4 ≤ s.img.len)
    (h5 : le32at s.img p ≠ 0x21585055) :
    find_gamedata fuel v s = .error .notFullyPacked := by
  unfold find_gamedata
  have e0 : rdU32e (setPos s 0x170) = .ok (le32at s.img 0x170, ⟨s.img, 0x174⟩) :=
    rdU32e_ok _ (by show (0x170 : Nat) + 4 ≤ s.img.len; omega)
  rw [e0, except_bind_ok]
  dsimp only
  rw [if_pos h1]
  have e1 : rdU32e (seekBy (⟨s.img, 0x174⟩ : Cur) 36) =
      .ok (le32at s.img 0x198, ⟨s.img, 0x19C⟩) :=
    rdU32e_ok _ (by show (0x198 : Nat) + 4 ≤ s.img.len; omega)
  rw [e1, except_bind_ok]
  dsimp only
  rw [if_pos h2]
  have hskip : skipVersion v (seekBy (⟨s.img, 0x19C⟩ : Cur) 76) = .ok ⟨s.img, p⟩ := by
    cases v with
    | false => exact skipVersion_false_some (⟨s.img, 0x1E8⟩ : Cur) p h3
    | true =>
      rw [skipVersion_true]
      have hT : skipVerTGo s.img (s.img.len - 0x1E8) 0x1E8 = p :=
        (skipVer_agree s.img (s.img.len - 0x1E8) 0x1E8 rfl).1 p h3
      show (Except.ok ⟨s.img, skipVerT s.img 0x1E8⟩ : Except RErr Cur) =
        (Except.ok ⟨s.img, p⟩ : Except RErr Cur)
      rw [show skipVerT s.img 0x1E8 = p from hT]
  rw [hskip, except_bind_ok]
  unfold fgUpxTail
  have e2 : rdU32e (⟨s.img, p⟩ : Cur) = .ok (le32at s.img p, ⟨s.img, p + 4⟩) :=
    rdU32e_ok _ (by show p + 4 ≤ s.img.len; omega)
  rw [e2, except_bind_ok]
  dsimp only
  rw [if_neg h5]

/-- The concrete buffer for the C5 counterexample: "UPX0" is present at
0x170 but the "UPX1" sub-header 36 bytes later is absent (zeros). -/
def c5cbuf : List Nat :=
  List.replicate 368 0 ++ [0x55, 0x50, 0x58, 0x30] ++ List.replicate 44 0

/-- Claim C5 counterexample: on c5cbuf the UPX primary signature matches and
the "UPX1" sub-header does not, yet extraction does not fail with the
partial-packing error — it falls through to the remaining probes and reports
UnknownFormat. -/
theorem c5_counterexample :
    le32at (listImg c5cbuf) 0x170 = 0x30585055 ∧
    le32at (listImg c5cbuf) 0x198 ≠ 0x31585055 ∧
    find_gamedata 1 false ⟨listImg c5cbuf, 0⟩ = .error .unknownFmt :=
  ⟨by decide, by decide, by rfl⟩

/-- The concrete buffer for the C5 witness: "UPX0", "UPX1", a version string
"3" ending in a zero byte, then a dword that is not "UPX!". -/
def c5wbuf : List Nat :=
  List.replicate 368 0 ++ [0x55, 0x50, 0x58, 0x30] ++ List.replicate 36 0 ++
    [0x55, 0x50, 0x58, 0x31] ++ List.replicate 76 0 ++ [0x33, 0x00] ++ List.replicate 6 0

theorem c5_upx_partial_witness :
    ((0x19C ≤ (listImg c5wbuf).len) ∧
      le32at (listImg c5wbuf) 0x170 = 0x30585055 ∧
      le32at (listImg c5wbuf) 0x198 = 0x31585055 ∧
      skipVerF (listImg c5wbuf) 0x1E8 = some 0x1EA ∧
      0x1EA + 4 ≤ (listImg c5wbuf).len ∧
      le32at (listImg c5wbuf) 0x1EA ≠ 0x21585055) ∧
    find_gamedata 3 true ⟨listImg c5wbuf, 0⟩ = .error .notFullyPacked :=
  ⟨⟨by decide, by decide, by decide, by decide, by decide, by decide⟩,
    c5_upx_partial 3 true ⟨listImg c5wbuf, 0⟩ 0x1EA (by decide) (by decide) (by decide)
      (by decide) (by decide) (by decide)⟩

/-! ## GM8.0 guard tolerance (check_gm80) -/

/-- Claim C7: a buffer that matches the GM8.0 loading-sequence signature and
has both guard checks replaced by the patched-out marker (NOP 0x90 in place
of the CMP opcode 0x3D) is still accepted by check_gm80 — it returns true
with the cursor 16 bytes past the header start, skipping the validation of
the header's first two dwords entirely (nothing is assumed about the header
contents). -/
theorem c7_check_gm80_patched (s : Cur)
    (hlen : 0x144AC4 ≤ s.img.len)
    (hsig : (List.range 8).map (fun i => s.img.byte (0xA49BE + i)) =
      [0x8B, 0x45, 0xF4, 0xE8, 0x2A, 0xBD, 0xFD, 0xFF])
    (hg1 : s.img.byte 0xA49C6 = 0x90)
    (hpre : (List.range 7).map (fun i => s.img.byte (0xA49E2 + i)) =
      [0x8B, 0xC6, 0xE8, 0x07, 0xBD, 0xFD, 0xFF])
    (hg2 : s.img.byte 0xA49E9 = 0x90) :
    check_gm80 s = .ok (true, ⟨s.img, le32at s.img 0x144AC0 + 16⟩) := by
  unfold check_gm80
  rw [if_neg (by omega)]
  have e1 : rdBytes (setPos s 0xA49BE) 8 =
      .ok ((List.range 8).map (fun i => s.img.byte (0xA49BE + i)), ⟨s.img, 0xA49C6⟩) :=
    rdBytes_ok _ 8 (by show (0xA49BE : Nat) + 8 ≤ s.img.len; omega)
  rw [e1, except_bind_ok]
  dsimp only
  rw [if_pos hsig]
  have e2 : gm80Magic [0x0F, 0x85, 0x18, 0x01, 0x00, 0x00] (⟨s.img, 0xA49C6⟩ : Cur) =
      .ok (.val none, ⟨s.img, 0xA49CB⟩) := by
    unfold gm80Magic
    rw [rdU8e_ok _ (by show (0xA49C6 : Nat) < s.img.len; omega), except_bind_ok]
    dsimp only
    rw [hg1]
    norm_num
    rfl
  rw [e2, except_bind_ok]
  dsimp only
  have e3 : rdBytes (setPos (⟨s.img, 0xA49CB⟩ : Cur) 0xA49E2) 7 =
      .ok ((List.range 7).map (fun i => s.img.byte (0xA49E2 + i)), ⟨s.img, 0xA49E9⟩) :=
    rdBytes_ok _ 7 (by show (0xA49E2 : Nat) + 7 ≤ s.img.len; omega)
  rw [e3, except_bind_ok]
  dsimp only
  rw [if_pos hpre]
  have e4 : gm80Magic [0x0F, 0x85, 0xF5, 0x00, 0x00, 0x00] (⟨s.img, 0xA49E9⟩ : Cur) =
      .ok (.val none, ⟨s.img, 0xA49EE⟩) := by
    unfold gm80Magic
    rw [rdU8e_ok _ (by show (0xA49E9 : Nat) < s.img.len; omega), except_bind_ok]
    dsimp only
    rw [hg2]
    norm_num
    rfl
  rw [e4, except_bind_ok]
  dsimp only
  have e5 : rdU32e (setPos (⟨s.img, 0xA49EE⟩ : Cur) 0x144AC0) =
      .ok (le32at s.img 0x144AC0, ⟨s.img, 0x144AC4⟩) :=
    rdU32e_ok _ (by show (0x144AC0 : Nat) + 4 ≤ s.img.len; omega)
  rw [e5, except_bind_ok]
  dsimp only
  rfl

/-- The concrete witness image for C7: minimum length for the GM8.0 probe,
the loading-sequence signature intact, both guard opcodes patched to NOP,
everything else zero. -/
def c7img : Img :=
  ⟨0x144AC4, fun i =>
    if i = 0xA49BE then 0x8B else if i = 0xA49BF then 0x45 else if i = 0xA49C0 then 0xF4
    else if i = 0xA49C1 then 0xE8 else if i = 0xA49C2 then 0x2A else if i = 0xA49C3 then 0xBD
    else if i = 0xA49C4 then 0xFD else if i = 0xA49C5 then 0xFF
    else if i = 0xA49C6 then 0x90
    else if i = 0xA49E2 then 0x8B else if i = 0xA49E3 then 0xC6 else if i = 0xA49E4 then 0xE8
    else if i = 0xA49E5 then 0x07 else if i = 0xA49E6 then 0xBD else if i = 0xA49E7 then 0xFD
    else if i = 0xA49E8 then 0xFF
    else if i = 0xA49E9 then 0x90
    else 0⟩

theorem c7_check_gm80_patched_witness :
    ((0x144AC4 ≤ c7img.len) ∧
      (List.range 8).map (fun i => c7img.byte (0xA49BE + i)) =
        [0x8B, 0x45, 0xF4, 0xE8, 0x2A, 0xBD, 0xFD, 0xFF] ∧
      c7img.byte 0xA49C6 = 0x90 ∧
      (List.range 7).map (fun i => c7img.byte (0xA49E2 + i)) =
        [0x8B, 0xC6, 0xE8, 0x07, 0xBD, 0xFD, 0xFF] ∧
      c7img.byte 0xA49E9 = 0x90) ∧
    check_gm80 ⟨c7img, 0⟩ = .ok (true, ⟨c7img, le32at c7img 0x144AC0 + 16⟩) :=
  ⟨⟨by decide, by decide, by decide, by decide, by decide⟩,
    c7_check_gm80_patched ⟨c7img, 0⟩ (by decide) (by decide) (by decide) (by decide) (by decide)⟩

/-! ## UPX decompressor crash on malformed input -/

/-- The failing input for C4: a 410-byte image whose PE-header byte (offset
0x3C) is 0, whose entry-point field (offset 40) is 0 — so the decompressor
allocates an empty output buffer — and whose first shift-register word
(offset 405) is 0xFFFFFFFF, driving the decoder into the literal-copy loop,
whose first write targets output index 0x400 of the empty output. -/
def c4buf : List Nat := List.replicate 405 0 ++ [0xFF, 0xFF, 0xFF, 0xFF, 0x00]

/-- Claim C4, evaluated at the failing input: unpack_upx ends in the `crash`
outcome — the Rust code panics on the out-of-bounds Vec index
`output[pu_var14]` — rather than returning a decode error as the claim and
the spec require. -/
theorem c4_upx_crash : unpack_upx 5 ⟨listImg c4buf, 0⟩ = .error .crash := by rfl
